import Mathlib

/-!
Shallow embedding of the coordination utilities in `util/misc.py` of the
Siamese-Image-Modeling repository, together with theorems settling the
specification claims about them.

Conventions used throughout:
* Python floats are modelled as exact rationals (`ℚ`); the single square
  root needed by the gradient-norm computation lives in `ℝ`.
* fallible Python code (unguarded division, `KeyError`, failing `assert`)
  is modelled with `Option`, `none` being the raised exception.
* collective communication (`dist.all_reduce`, `dist.all_gather`) is
  modelled by passing the list of all ranks' values explicitly.
-/

namespace Misc

/-- State of a `SmoothedValue` meter: the bounded sliding window (the
`deque` with `maxlen = window_size`), and the cumulative `count`/`total`
pair.  Mirrors `SmoothedValue.__init__` in `util/misc.py`. -/
structure SmoothedValue where
  window : List ℚ
  window_size : Nat
  count : Nat
  total : ℚ
deriving DecidableEq

/-- Fresh meter: empty deque, `total = 0.0`, `count = 0`. -/
def SmoothedValue.init (window_size : Nat) : SmoothedValue :=
  ⟨[], window_size, 0, 0⟩

/-- `SmoothedValue.update(value, n)`: append `value` to the deque (the
deque evicts from the left beyond `window_size`), add `n` to `count` and
`value * n` to `total`. -/
def SmoothedValue.update (s : SmoothedValue) (value : ℚ) (n : Nat) : SmoothedValue :=
  { s with
    window := (s.window ++ [value]).drop ((s.window ++ [value]).length - s.window_size)
    count := s.count + n
    total := s.total + value * (n : ℚ) }

/-- `is_dist_avail_and_initialized()`: true exactly when the distributed
package is both available and initialized. -/
def is_dist_avail_and_initialized (avail initialized : Bool) : Bool :=
  avail && initialized

/-- `SmoothedValue.synchronize_between_processes()`: when the distributed
substrate is up, replace the local `(count, total)` pair by the sum-reduce
(`dist.all_reduce`) over all ranks' pairs, which `world` lists; otherwise
return immediately with the state unchanged.  The deque is never touched. -/
def SmoothedValue.synchronize_between_processes (distOk : Bool)
    (world : List SmoothedValue) (s : SmoothedValue) : SmoothedValue :=
  if distOk then
    { s with
      count := (world.map SmoothedValue.count).sum
      total := (world.map SmoothedValue.total).sum }
  else s

/-- `SmoothedValue.global_avg`: the unguarded division `total / count`;
`none` models the `ZeroDivisionError` raised when `count = 0`. -/
def SmoothedValue.global_avg (s : SmoothedValue) : Option ℚ :=
  if s.count = 0 then none else some (s.total / (s.count : ℚ))

/-- `SmoothedValue.median`: median of the window (`torch.median` returns
the lower of the two middle elements); `none` models the error on an
empty window. -/
def SmoothedValue.median (s : SmoothedValue) : Option ℚ :=
  (s.window.insertionSort (· ≤ ·))[(s.window.length - 1) / 2]?

/-- `SmoothedValue.avg`: mean of the window; `none` on an empty window. -/
def SmoothedValue.avg (s : SmoothedValue) : Option ℚ :=
  if s.window.length = 0 then none else some (s.window.sum / (s.window.length : ℚ))

/-- `SmoothedValue.max`: `max(self.deque)`; `none` on an empty window. -/
def SmoothedValue.maxWin (s : SmoothedValue) : Option ℚ :=
  s.window.max?

/-- `SmoothedValue.value`: `self.deque[-1]`; `none` on an empty window. -/
def SmoothedValue.value (s : SmoothedValue) : Option ℚ :=
  s.window.getLast?

/-- One rank's meter after `update`-ing each element of `l` with the
default weight `n = 1`, starting from a fresh meter. -/
def runUpdates (l : List ℚ) : SmoothedValue :=
  l.foldl (fun st v => st.update v 1) (SmoothedValue.init 20)

theorem foldl_update_count (l : List ℚ) (s : SmoothedValue) :
    (l.foldl (fun st v => st.update v 1) s).count = s.count + l.length := by
  induction l generalizing s with
  | nil => simp
  | cons a l ih =>
    rw [List.foldl_cons, ih]
    simp only [SmoothedValue.update, List.length_cons]
    omega

theorem foldl_update_total (l : List ℚ) (s : SmoothedValue) :
    (l.foldl (fun st v => st.update v 1) s).total = s.total + l.sum := by
  induction l generalizing s with
  | nil => simp
  | cons a l ih =>
    rw [List.foldl_cons, ih]
    simp only [SmoothedValue.update, List.sum_cons]
    push_cast
    ring

theorem runUpdates_count (l : List ℚ) : (runUpdates l).count = l.length := by
  simp [runUpdates, foldl_update_count, SmoothedValue.init]

theorem runUpdates_total (l : List ℚ) : (runUpdates l).total = l.sum := by
  simp [runUpdates, foldl_update_total, SmoothedValue.init]

theorem sum_map_length (v : List (List ℚ)) (K : Nat) (h : ∀ l ∈ v, l.length = K) :
    (v.map List.length).sum = K * v.length := by
  induction v with
  | nil => simp
  | cons a v ih =>
    simp only [List.map_cons, List.sum_cons, List.length_cons]
    rw [h a (by simp), ih (fun l hl => h l (by simp [hl]))]
    ring

/-- C5: if the ranks' update streams are the members of `v`, each of length
`K` with weight 1, and every rank then synchronizes exactly once (a
sum-reduce of the `(count, total)` pairs), then on every rank `global_avg`
equals the grand total divided by `K * R`, independent of per-rank update
order (the statement holds for every choice of the per-rank lists `v`). -/
theorem metric_reduction_correct (v : List (List ℚ)) (K : Nat)
    (hK : 0 < K) (hR : 0 < v.length) (hlen : ∀ l ∈ v, l.length = K) :
    ∀ s0 ∈ v.map runUpdates,
      SmoothedValue.global_avg
        (SmoothedValue.synchronize_between_processes true (v.map runUpdates) s0)
        = some ((v.map List.sum).sum / ((K * v.length : Nat) : ℚ)) := by
  intro s0 _
  have hcount : ((v.map runUpdates).map SmoothedValue.count).sum = K * v.length := by
    rw [List.map_map]
    have hc : (SmoothedValue.count ∘ runUpdates) = List.length := by
      funext l; simp [Function.comp, runUpdates_count]
    rw [hc, sum_map_length v K hlen]
  have htotal : ((v.map runUpdates).map SmoothedValue.total).sum = (v.map List.sum).sum := by
    rw [List.map_map]
    have ht : (SmoothedValue.total ∘ runUpdates) = List.sum := by
      funext l; simp [Function.comp, runUpdates_total]
    rw [ht]
  have hne : K * v.length ≠ 0 := Nat.mul_ne_zero (by omega) (by omega)
  simp only [SmoothedValue.synchronize_between_processes, if_true,
    SmoothedValue.global_avg, hcount, htotal]
  rw [if_neg hne]

/-- Witness for C5 at `v = [[1,2],[3,4]]`, `K = 2`. -/
theorem metric_reduction_witness :
    SmoothedValue.global_avg
      (SmoothedValue.synchronize_between_processes true
        ([[(1 : ℚ), 2], [3, 4]].map runUpdates) (runUpdates [(1 : ℚ), 2]))
      = some (([[(1 : ℚ), 2], [3, 4]].map List.sum).sum / ((2 * 2 : Nat) : ℚ)) := by
  have h := metric_reduction_correct [[(1 : ℚ), 2], [3, 4]] 2 (by decide) (by decide)
    (by decide)
  exact h _ (List.mem_map_of_mem _ (List.Mem.head _))

/-- C9: a fresh `SmoothedValue` has `count = 0` and reading `global_avg`
on it fails (the division `total / count` is unguarded); `global_avg` is
defined exactly when `count > 0`, which holds after any single `update`
with the default weight 1. -/
theorem global_avg_unguarded :
    (SmoothedValue.init 20).count = 0 ∧
    (SmoothedValue.init 20).global_avg = none ∧
    (∀ s : SmoothedValue, s.global_avg = none ↔ s.count = 0) ∧
    (∀ (s : SmoothedValue) (x : ℚ), ((s.update x 1).global_avg).isSome = true) := by
  refine ⟨rfl, rfl, fun s => ?_, fun s x => ?_⟩
  · constructor
    · intro h
      by_contra hc
      simp [SmoothedValue.global_avg, hc] at h
    · intro h
      simp [SmoothedValue.global_avg, h]
  · simp [SmoothedValue.update, SmoothedValue.global_avg]

/-- C10: when the distributed substrate is unavailable or uninitialized,
`synchronize_between_processes` is a no-op: the state and therefore every
read accessor is unchanged. -/
theorem synchronize_noop_when_not_distributed (avail initialized : Bool)
    (world : List SmoothedValue) (s : SmoothedValue)
    (h : avail = false ∨ initialized = false) :
    SmoothedValue.synchronize_between_processes
        (is_dist_avail_and_initialized avail initialized) world s = s ∧
    (SmoothedValue.synchronize_between_processes
        (is_dist_avail_and_initialized avail initialized) world s).count = s.count ∧
    (SmoothedValue.synchronize_between_processes
        (is_dist_avail_and_initialized avail initialized) world s).total = s.total ∧
    (SmoothedValue.synchronize_between_processes
        (is_dist_avail_and_initialized avail initialized) world s).window = s.window ∧
    (SmoothedValue.synchronize_between_processes
        (is_dist_avail_and_initialized avail initialized) world s).global_avg = s.global_avg ∧
    (SmoothedValue.synchronize_between_processes
        (is_dist_avail_and_initialized avail initialized) world s).median = s.median ∧
    (SmoothedValue.synchronize_between_processes
        (is_dist_avail_and_initialized avail initialized) world s).avg = s.avg ∧
    (SmoothedValue.synchronize_between_processes
        (is_dist_avail_and_initialized avail initialized) world s).maxWin = s.maxWin ∧
    (SmoothedValue.synchronize_between_processes
        (is_dist_avail_and_initialized avail initialized) world s).value = s.value := by
  have hd : is_dist_avail_and_initialized avail initialized = false := by
    rcases h with h | h <;> simp [is_dist_avail_and_initialized, h]
  have he : SmoothedValue.synchronize_between_processes
      (is_dist_avail_and_initialized avail initialized) world s = s := by
    simp [SmoothedValue.synchronize_between_processes, hd]
  exact ⟨he, by rw [he], by rw [he], by rw [he], by rw [he], by rw [he], by rw [he],
    by rw [he], by rw [he]⟩

/-- Witness for C10 at `avail = false`, `initialized = true`. -/
theorem synchronize_noop_witness :
    ((false : Bool) = false ∨ (true : Bool) = false) ∧
    SmoothedValue.synchronize_between_processes
        (is_dist_avail_and_initialized false true) [] (SmoothedValue.init 20)
      = SmoothedValue.init 20 :=
  ⟨Or.inl rfl,
    (synchronize_noop_when_not_distributed false true [] (SmoothedValue.init 20)
      (Or.inl rfl)).1⟩

/-- `GatherLayer.forward`: `dist.all_gather` collects every rank's shard
into the rank-ordered list of shards, and `torch.stack(output, 0)` packs
them; every rank receives the same rank-ordered result. -/
def GatherLayer.forward (shards : List (List ℚ)) : List (List ℚ) :=
  shards

/-- `dist.all_reduce(grads)` with the default SUM op applied to the
per-rank copies of the stacked gradient: pointwise sum over ranks. -/
def allReduceSum : List (List (List ℚ)) → List (List ℚ)
  | [] => []
  | g :: rest =>
    rest.foldl (fun acc h => acc.zipWith (fun a b => a.zipWith (· + ·) b) h) g

/-- `GatherLayer.backward` on rank `rank`: sum-reduce the per-rank stacked
gradients, then return the slice of the combined gradient at this rank's
own position (`grad_out[:] = grads[dist.get_rank()]`); `none` models an
out-of-range rank. -/
def GatherLayer.backward (gradsPerRank : List (List (List ℚ))) (rank : Nat) :
    Option (List ℚ) :=
  (allReduceSum gradsPerRank)[rank]?

/-- C6 counterexample: with 2 ranks, shard size 1, and the identical
downstream gradient `[3, 4]` held by both ranks, the backward pass
sum-reduces before slicing, so rank 0 receives `6 = 3 + 3` and rank 1
receives `8 = 4 + 4` — not `3` and `4` as the claim states. -/
theorem gather_backward_counterexample :
    GatherLayer.backward [[[(3 : ℚ)], [4]], [[3], [4]]] 0 = some [(6 : ℚ)] ∧
    GatherLayer.backward [[[(3 : ℚ)], [4]], [[3], [4]]] 0 ≠ some [(3 : ℚ)] ∧
    GatherLayer.backward [[[(3 : ℚ)], [4]], [[3], [4]]] 1 = some [(8 : ℚ)] ∧
    GatherLayer.backward [[[(3 : ℚ)], [4]], [[3], [4]]] 1 ≠ some [(4 : ℚ)] := by
  refine ⟨?_, ?_, ?_, ?_⟩ <;> norm_num [GatherLayer.backward, allReduceSum]

/-- C6 (amended): the gather forward yields the rank-ordered result with
both slots preserved exactly; the backward pass first sums the two ranks'
(identical) downstream gradients and then slices, so rank 0 receives
`g0 + g0` and rank 1 receives `g1 + g1` — the world-size multiple of the
per-copy gradient, not `g0` and `g1` themselves. -/
theorem gather_routing (a b g0 g1 : ℚ) :
    GatherLayer.forward [[a], [b]] = [[a], [b]] ∧
    (GatherLayer.forward [[a], [b]])[0]? = some [a] ∧
    (GatherLayer.forward [[a], [b]])[1]? = some [b] ∧
    GatherLayer.backward [[[g0], [g1]], [[g0], [g1]]] 0 = some [g0 + g0] ∧
    GatherLayer.backward [[[g0], [g1]], [[g0], [g1]]] 1 = some [g1 + g1] := by
  exact ⟨rfl, rfl, rfl, rfl, rfl⟩

/-- `linear2cnn`: `reshape(-1, 16, 16, 3)` of an `(L, 768)` linear
projection weight followed by `einsum('lpqc->lcpq')`.  Row-major
flattening sends linear column `p*48 + q*3 + c` to kernel entry
`(c, p, q)`. -/
def linear2cnn {L : Nat} (linear_weight : Fin L → Fin 768 → ℚ) :
    Fin L → Fin 3 → Fin 16 → Fin 16 → ℚ :=
  fun l c p q =>
    linear_weight l ⟨(p : Nat) * 48 + (q : Nat) * 3 + (c : Nat), by
      have hp := p.isLt; have hq := q.isLt; have hc := c.isLt; omega⟩

/-- `cnn2linear`: `einsum('lcpq->lpqc')` followed by
`reshape(-1, 16*16*3)`. -/
def cnn2linear {L : Nat} (cnn_weight : Fin L → Fin 3 → Fin 16 → Fin 16 → ℚ) :
    Fin L → Fin 768 → ℚ :=
  fun l j =>
    cnn_weight l ⟨(j : Nat) % 3, by omega⟩
      ⟨(j : Nat) / 48, by have hj := j.isLt; omega⟩
      ⟨(j : Nat) / 3 % 16, by omega⟩

/-- C8: the patch-embed layout conversions form an exact round trip in
both directions, altering no value. -/
theorem linear_cnn_roundtrip {L : Nat} (w : Fin L → Fin 768 → ℚ)
    (k : Fin L → Fin 3 → Fin 16 → Fin 16 → ℚ) :
    cnn2linear (linear2cnn w) = w ∧ linear2cnn (cnn2linear k) = k := by
  constructor
  · funext l j
    have hj := j.isLt
    simp only [linear2cnn, cnn2linear]
    have key : ∀ j' : Fin 768, j' = j → w l j' = w l j := by
      rintro _ rfl; rfl
    apply key
    apply Fin.ext
    dsimp only
    omega
  · funext l c p q
    have hp := p.isLt
    have hq := q.isLt
    have hc := c.isLt
    simp only [linear2cnn, cnn2linear]
    have key : ∀ (c' : Fin 3) (p' : Fin 16) (q' : Fin 16),
        c' = c → p' = p → q' = q → k l c' p' q' = k l c p q := by
      rintro _ _ _ rfl rfl rfl; rfl
    apply key <;> (apply Fin.ext; dsimp only; omega)

/-- Sum of squared entries of a gradient: the square of its L2 norm. -/
def sqSum (g : List ℚ) : ℚ :=
  (g.map (fun x => x * x)).sum

/-- `torch.norm(g, 2)` modelled exactly: the real square root of the
(rational) sum of squares. -/
noncomputable def tensorNorm2 (g : List ℚ) : ℝ :=
  Real.sqrt ((sqSum g : ℚ) : ℝ)

/-- `g.abs().max()`: largest absolute entry of a gradient (0 on an empty
gradient). -/
def tensorAbsMax (g : List ℚ) : ℚ :=
  g.foldl (fun a x => max a |x|) 0

/-- The two `norm_type` values the claim covers: the default `2.0` and
`inf`. -/
inductive NormType where
  | two
  | infty

/-- `get_grad_norm_(parameters, norm_type)`: drop parameters whose `grad`
is `None`; on an empty remainder return `torch.tensor(0.)`; otherwise for
`norm_type == inf` take `max(p.grad.abs().max() for p in parameters)`,
and for `norm_type = 2` take
`torch.norm(torch.stack([torch.norm(p.grad, 2) for p in parameters]), 2)`. -/
noncomputable def get_grad_norm_ (norm_type : NormType)
    (parameters : List (Option (List ℚ))) : ℝ :=
  let ps := parameters.filterMap id
  if ps.length = 0 then 0
  else
    match norm_type with
    | NormType.infty => ((ps.map tensorAbsMax).foldl max 0 : ℚ)
    | NormType.two => Real.sqrt ((ps.map (fun g => tensorNorm2 g ^ 2)).sum)

theorem sqSum_nonneg (g : List ℚ) : 0 ≤ sqSum g := by
  apply List.sum_nonneg
  intro x hx
  obtain ⟨y, _, rfl⟩ := List.mem_map.1 hx
  exact mul_self_nonneg y

theorem foldl_max_nonneg (l : List ℚ) (i : ℚ) (hi : 0 ≤ i) : 0 ≤ l.foldl max i := by
  induction l generalizing i with
  | nil => exact hi
  | cons a l ih => exact ih _ (le_trans hi (le_max_left i a))

theorem foldl_max_shift (l : List ℚ) (i : ℚ) (hi : 0 ≤ i)
    (hl : ∀ x ∈ l, 0 ≤ x) : l.foldl max i = max i (l.foldl max 0) := by
  induction l generalizing i with
  | nil => simp [max_eq_left hi]
  | cons a l ih =>
    have ha : 0 ≤ a := hl a (List.mem_cons_self a l)
    have hl2 : ∀ x ∈ l, 0 ≤ x := fun x hx => hl x (List.mem_cons_of_mem a hx)
    rw [List.foldl_cons, List.foldl_cons, max_eq_right ha,
      ih (max i a) (le_trans hi (le_max_left i a)) hl2, ih a ha hl2, max_assoc]

theorem foldl_max_append (l1 l2 : List ℚ) (h2 : ∀ x ∈ l2, 0 ≤ x) :
    (l1 ++ l2).foldl max 0 = max (l1.foldl max 0) (l2.foldl max 0) := by
  rw [List.foldl_append]
  exact foldl_max_shift l2 _ (foldl_max_nonneg l1 0 le_rfl) h2

theorem tensorAbsMax_eq (g : List ℚ) :
    tensorAbsMax g = (g.map (fun x => |x|)).foldl max 0 := by
  rw [List.foldl_map]
  rfl

theorem tensorAbsMax_nonneg (g : List ℚ) : 0 ≤ tensorAbsMax g := by
  rw [tensorAbsMax_eq]
  exact foldl_max_nonneg _ 0 le_rfl

theorem abs_map_nonneg (g : List ℚ) : ∀ x ∈ g.map (fun x => |x|), 0 ≤ x := by
  intro x hx
  obtain ⟨y, _, rfl⟩ := List.mem_map.1 hx
  exact abs_nonneg y

theorem max_nested_eq_flat (ps : List (List ℚ)) :
    (ps.map tensorAbsMax).foldl max 0 = ((ps.flatten).map (fun x => |x|)).foldl max 0 := by
  induction ps with
  | nil => rfl
  | cons g ps ih =>
    have hmem : ∀ x ∈ ps.map tensorAbsMax, 0 ≤ x := by
      intro x hx
      obtain ⟨y, _, rfl⟩ := List.mem_map.1 hx
      exact tensorAbsMax_nonneg y
    rw [List.flatten_cons, List.map_append, foldl_max_append _ _ (abs_map_nonneg _),
      ← tensorAbsMax_eq, ← ih, List.map_cons, List.foldl_cons,
      max_eq_right (tensorAbsMax_nonneg g),
      foldl_max_shift _ _ (tensorAbsMax_nonneg g) hmem]

theorem filterMap_id_replicate_none (k : Nat) :
    (List.replicate k (none : Option (List ℚ))).filterMap id = [] := by
  induction k with
  | zero => rfl
  | succ k ih =>
    rw [List.replicate_succ]
    exact ih

/-- C7: `get_grad_norm_` skips absent gradients; with `norm_type = 2` it
returns the square root of the sum, over parameters with a gradient, of
the squared L2 norm of each gradient; with `norm_type = inf` it returns
the maximum absolute entry over all present gradients; and when no
parameter has a gradient (any all-`None` list) it returns 0. -/
theorem get_grad_norm_spec (parameters : List (Option (List ℚ))) :
    (∀ nt, get_grad_norm_ nt (none :: parameters) = get_grad_norm_ nt parameters) ∧
    get_grad_norm_ NormType.two parameters
      = Real.sqrt (((parameters.filterMap id).map (fun g => ((sqSum g : ℚ) : ℝ))).sum) ∧
    get_grad_norm_ NormType.infty parameters
      = ((((parameters.filterMap id).flatten.map (fun x => |x|)).foldl max 0 : ℚ) : ℝ) ∧
    (∀ nt k, get_grad_norm_ nt (List.replicate k none) = 0) := by
  refine ⟨fun nt => rfl, ?_, ?_, ?_⟩
  · by_cases h : (parameters.filterMap id).length = 0
    · have he : parameters.filterMap id = [] := List.length_eq_zero.1 h
      simp [get_grad_norm_, h, he]
    · simp only [get_grad_norm_, if_neg h]
      have hm : (parameters.filterMap id).map (fun g => tensorNorm2 g ^ 2)
          = (parameters.filterMap id).map (fun g => ((sqSum g : ℚ) : ℝ)) :=
        List.map_congr_left (fun g _ => by
          rw [tensorNorm2, Real.sq_sqrt (by exact_mod_cast sqSum_nonneg g)])
      rw [hm]
  · by_cases h : (parameters.filterMap id).length = 0
    · have he : parameters.filterMap id = [] := List.length_eq_zero.1 h
      simp [get_grad_norm_, h, he]
    · simp only [get_grad_norm_, if_neg h]
      rw [max_nested_eq_flat]
  · intro nt k
    simp [get_grad_norm_, filterMap_id_replicate_none]

/-- Keys of a checkpoint record.  The Python code keys the record by the
component names of `self.modules` (strings such as "model", "optimizer",
"scaler") plus the keys of the caller-supplied `save_dict`, among which
`resume` reads the key "epoch". -/
inductive CKey where
  | model
  | optim
  | scaler
  | sampler
  | epoch
  | extra (n : Nat)
deriving DecidableEq

/-- A serialized mapping from component key to state blob (component
states are abstracted as naturals). -/
abbrev StateDict := List (CKey × Nat)

/-- First-match lookup in a serialized mapping (`checkpoint[k]`);
`none` models the Python `KeyError`. -/
def alookup : StateDict → CKey → Option Nat
  | [], _ => none
  | (k, v) :: rest, key => if k = key then some v else alookup rest key

/-- `CheckpointManager.create_state_dict`: `{k: modules[k].state_dict()}`
updated with `save_dict` (whose keys take precedence, as with Python's
`dict.update`; with first-match lookup that is `save_dict ++ modules`). -/
def CheckpointManager.create_state_dict (modules save_dict : StateDict) : StateDict :=
  save_dict ++ modules

/-- The checkpoint directory: the single overwritable
`checkpoint_latest<suffix>.pth` record plus the immutable numbered
snapshots `checkpoint_<epoch><suffix>.pth`. -/
structure CkptDir where
  latest : Option StateDict
  snapshots : List (Nat × StateDict)
deriving DecidableEq

/-- `CheckpointManager.checkpoint(epoch, save_dict)`: non-leader ranks
return without any I/O; the leader overwrites the "latest" record with
`create_state_dict(save_dict)` and, when `save_freq` is configured and
`epoch % save_freq == 0` or `epoch` is in `save_list`, additionally
writes a numbered snapshot for that epoch. -/
def CheckpointManager.checkpoint (rank : Nat) (save_freq : Option Nat)
    (save_list : List Nat) (modules : StateDict) (epoch : Nat)
    (save_dict : StateDict) (dir : CkptDir) : CkptDir :=
  if rank ≠ 0 then dir
  else
    let state := CheckpointManager.create_state_dict modules save_dict
    let dir1 : CkptDir := { dir with latest := some state }
    match save_freq with
    | some f =>
      if epoch % f = 0 ∨ epoch ∈ save_list then
        { dir1 with snapshots := (epoch, state) :: dir1.snapshots }
      else dir1
    | none => dir1

/-- Load every module of `modules` from the record `ckpt`
(`self.modules[k].load_state_dict(checkpoint[k])` in order); `none`
models the `KeyError` raised at the first missing key. -/
def loadModules (ckpt : StateDict) : StateDict → Option StateDict
  | [] => some []
  | (k, _) :: rest =>
    match alookup ckpt k with
    | none => none
    | some v => (loadModules ckpt rest).map (fun ms => (k, v) :: ms)

/-- `CheckpointManager.resume()`: with no "latest" record, report a cold
start (`start_epoch = 0`) and leave the modules untouched; otherwise load
every module's state from the record and return
`start_epoch = checkpoint['epoch']` — the recorded value itself, not
`+ 1`; `none` models a `KeyError` on a missing module or epoch key. -/
def CheckpointManager.resume (modules : StateDict) (dir : CkptDir) :
    Option (StateDict × Nat) :=
  match dir.latest with
  | none => some (modules, 0)
  | some ckpt =>
    match loadModules ckpt modules with
    | none => none
    | some ms =>
      match alookup ckpt CKey.epoch with
      | none => none
      | some e => some (ms, e)

/-- C2 counterexample: checkpoint a record whose recorded epoch value is 5
(`checkpoint(epoch=5, save_dict={'epoch': 5})`); a fresh process's
`resume()` returns start epoch 5, not the claimed recorded-epoch + 1 = 6.
Moreover, `checkpoint(epoch=5)` with no `save_dict` stores no epoch key at
all, so `resume()` then fails with a `KeyError` instead of returning 6. -/
theorem resume_counterexample :
    CheckpointManager.resume [(CKey.model, 3)]
        (CheckpointManager.checkpoint 0 none [] [(CKey.model, 7)] 5
          [(CKey.epoch, 5)] ⟨none, []⟩)
      = some ([(CKey.model, 7)], 5) ∧
    CheckpointManager.resume [(CKey.model, 3)]
        (CheckpointManager.checkpoint 0 none [] [(CKey.model, 7)] 5
          [(CKey.epoch, 5)] ⟨none, []⟩)
      ≠ some ([(CKey.model, 7)], 6) ∧
    CheckpointManager.resume [(CKey.model, 3)]
        (CheckpointManager.checkpoint 0 none [] [(CKey.model, 7)] 5 [] ⟨none, []⟩)
      = none := by
  refine ⟨?_, ?_, ?_⟩ <;> decide

/-- C2 (amended): `resume()` with no "latest" record returns epoch 0 and
leaves the modules untouched; after a leader-rank `checkpoint` whose
record carries epoch value `v` (the caller must place it in `save_dict`;
the `epoch` argument of `checkpoint` itself is not stored), `resume()`
restores every named component's state from the record and returns `v`
itself as the start epoch — not `v + 1`. -/
theorem resume_semantics (modules ms save_dict : StateDict) (sf : Option Nat)
    (sl : List Nat) (e v : Nat) (dir : CkptDir)
    (hv : alookup (CheckpointManager.create_state_dict modules save_dict) CKey.epoch
      = some v)
    (hk : ∀ p ∈ ms,
      (alookup (CheckpointManager.create_state_dict modules save_dict) p.1).isSome
        = true) :
    (∀ snaps, CheckpointManager.resume ms ⟨none, snaps⟩ = some (ms, 0)) ∧
    CheckpointManager.resume ms
        (CheckpointManager.checkpoint 0 sf sl modules e save_dict dir)
      = some (ms.map (fun p =>
          (p.1, (alookup (CheckpointManager.create_state_dict modules save_dict)
            p.1).getD 0)), v) := by
  constructor
  · intro snaps
    rfl
  · have hlatest : (CheckpointManager.checkpoint 0 sf sl modules e save_dict dir).latest
        = some (CheckpointManager.create_state_dict modules save_dict) := by
      unfold CheckpointManager.checkpoint
      cases sf with
      | none => rfl
      | some f =>
        by_cases hc : e % f = 0 ∨ e ∈ sl
        · simp [hc]
        · simp [hc]
    have hload : ∀ l : StateDict,
        (∀ p ∈ l,
          (alookup (CheckpointManager.create_state_dict modules save_dict) p.1).isSome
            = true) →
        loadModules (CheckpointManager.create_state_dict modules save_dict) l
          = some (l.map (fun p =>
              (p.1, (alookup (CheckpointManager.create_state_dict modules save_dict)
                p.1).getD 0))) := by
      intro l
      induction l with
      | nil => intro _; rfl
      | cons p rest ih =>
        intro hall
        obtain ⟨u, hu⟩ := Option.isSome_iff_exists.1 (hall p (List.mem_cons_self p rest))
        obtain ⟨k, s⟩ := p
        simp only [loadModules, hu]
        rw [ih (fun q hq => hall q (List.mem_cons_of_mem _ hq))]
        simp [hu]
    unfold CheckpointManager.resume
    rw [hlatest]
    simp only [hload ms hk, hv]

/-- Witness for C2 (amended) at one module and recorded epoch value 6. -/
theorem resume_semantics_witness :
    CheckpointManager.resume [(CKey.model, 3)]
        (CheckpointManager.checkpoint 0 none [] [(CKey.model, 7)] 5
          [(CKey.epoch, 6)] ⟨none, []⟩)
      = some ([(CKey.model, 7)], 6) := by
  have h := (resume_semantics [(CKey.model, 7)] [(CKey.model, 3)] [(CKey.epoch, 6)]
    none [] 5 6 ⟨none, []⟩ (by decide) (by decide)).2
  simpa using h

/-- `NodeDistributedSampler.num_samples`:
`int(math.ceil(len(dataset) / num_replicas))` with dataset size `N` and
world size `W`. -/
def num_samples (N W : Nat) : Nat :=
  (N + W - 1) / W

/-- `NodeDistributedSampler.total_size_parts`:
`num_samples * num_replicas // num_parts`. -/
def total_size_parts (N W P : Nat) : Nat :=
  num_samples N W * W / P

/-- The node-local share: `[i for i in indices if i % num_parts == local_rank]`. -/
def nodeIndices (P local_rank : Nat) (indices : List Nat) : List Nat :=
  indices.filter (fun i => i % P == local_rank)

/-- The node-local share padded from its own front:
`indices += indices[:(total_size_parts - len(indices))]`. -/
def paddedIndices (N W P local_rank : Nat) (indices : List Nat) : List Nat :=
  let f := nodeIndices P local_rank indices
  f ++ f.take (total_size_parts N W P - f.length)

/-- Python's extended slice `l[a : b : step]` for `b ≤ len(l)` and
`step > 0`: the elements at positions `a, a + step, ...` below `b`. -/
def pySlice (l : List Nat) (a b step : Nat) : List Nat :=
  (List.range ((b - a + step - 1) / step)).map (fun k => l.getD (a + k * step) 0)

/-- `NodeDistributedSampler.__iter__` for a given ordering `indices` of
the dataset (`torch.randperm(N)` seeded by the epoch when shuffling,
`torch.arange(N)` otherwise): filter the node-local share, pad it to
`total_size_parts` (the first `assert`; `none` models its failure), then
subsample `indices[rank // num_parts : total_size_parts :
num_replicas // num_parts]` and check the second `assert`. -/
def iter (N W P rank local_rank : Nat) (indices : List Nat) : Option (List Nat) :=
  let pad := paddedIndices N W P local_rank indices
  if pad.length = total_size_parts N W P then
    let sub := pySlice pad (rank / P) (total_size_parts N W P) (W / P)
    if sub.length = num_samples N W then some sub else none
  else none

/-- `iter` for global rank `r` in the standard cluster layout, where the
`num_parts` ranks of each node are consecutive and rank `r` has
`local_rank = r % num_parts` (so ranks `r` and `r + num_parts` share a
local rank, as in the spec's 2-node example where ranks 0 and 2 do). -/
def iterRank (N W P : Nat) (indices : List Nat) (rank : Nat) : Option (List Nat) :=
  iter N W P rank (rank % P) indices

/-- C4: the end-to-end scenario `N = 10`, `W = 4`, `P = 2`,
`shuffle = false`: `num_samples = 3`; the node-local sequence of
local-rank 0 before padding is `[0,2,4,6,8]`; it pads to length 6; ranks
0 and 2 (both local-rank 0) receive the length-3 sequences `[0,4,8]` and
`[2,6,0]`, which together cover all five even indices. -/
theorem end_to_end_scenario :
    num_samples 10 4 = 3 ∧
    nodeIndices 2 0 (List.range 10) = [0, 2, 4, 6, 8] ∧
    total_size_parts 10 4 2 = 6 ∧
    (paddedIndices 10 4 2 0 (List.range 10)).length = 6 ∧
    iterRank 10 4 2 (List.range 10) 0 = some [0, 4, 8] ∧
    iterRank 10 4 2 (List.range 10) 2 = some [2, 6, 0] ∧
    (∀ i ∈ [0, 2, 4, 6, 8], i ∈ [0, 4, 8] ∨ i ∈ [2, 6, 0]) := by
  decide

theorem num_samples_mul_ge (N W : Nat) (hW : 0 < W) : N ≤ num_samples N W * W := by
  rcases Nat.eq_zero_or_pos N with h | h
  · simp [h]
  · have h2 : N + W - 1 = N - 1 + 1 * W := by omega
    have h3 : num_samples N W = (N - 1) / W + 1 := by
      rw [num_samples, h2, Nat.add_mul_div_right _ _ hW]
    have h4 : N - 1 < ((N - 1) / W + 1) * W :=
      (Nat.div_lt_iff_lt_mul hW).1 (Nat.lt_succ_self _)
    rw [h3]
    omega

theorem arith_case_eq (t L P N : Nat) (hL : L < P) (h : N = t + L) :
    N + P - 1 - L = t + (P - 1) ∧ N + 1 + P - 1 - L = t + P := by omega

theorem arith_case_gt (t L P N r : Nat) (h : N = t + r) (h1 : L < r) (h2 : r < P) :
    N + P - 1 - L = t + P + (r - 1 - L) ∧ N + 1 + P - 1 - L = t + P + (r - L) ∧
      r - 1 - L < P ∧ r - L < P := by omega

theorem arith_case_lt (t L P N r : Nat) (h : N = t + r) (h1 : r < L) (h2 : L < P) :
    N + P - 1 - L = t + (P - 1 - (L - r)) ∧ N + 1 + P - 1 - L = t + (P - (L - r)) ∧
      P - 1 - (L - r) < P ∧ P - (L - r) < P := by omega

theorem length_filter_range_mod (P L : Nat) (hP : 0 < P) (hL : L < P) :
    ∀ N, ((List.range N).filter (fun i => i % P == L)).length = (N + P - 1 - L) / P := by
  intro N
  induction N with
  | zero =>
    simp only [List.range_zero, List.filter_nil, List.length_nil, Nat.zero_add]
    exact (Nat.div_eq_of_lt (by omega)).symm
  | succ N ih =>
    rw [List.range_succ, List.filter_append, List.length_append, ih]
    by_cases h : N % P = L
    · simp only [List.filter_cons, List.filter_nil, h, beq_self_eq_true, if_true,
        List.length_cons, List.length_nil]
      have hdm := Nat.div_add_mod N P
      rw [h] at hdm
      obtain ⟨e1, e2⟩ := arith_case_eq (P * (N / P)) L P N hL hdm.symm
      have hq1 : (N + P - 1 - L) / P = N / P := by
        rw [e1, Nat.mul_add_div hP, Nat.div_eq_of_lt (show P - 1 < P by omega),
          Nat.add_zero]
      have hq2 : (N + 1 + P - 1 - L) / P = N / P + 1 := by
        rw [e2, show P * (N / P) + P = P * (N / P + 1) by ring,
          Nat.mul_div_cancel_left _ hP]
      rw [hq1, hq2]
    · simp only [List.filter_cons, List.filter_nil]
      rw [if_neg (by simp [h]), List.length_nil]
      have hdm := Nat.div_add_mod N P
      have hrP : N % P < P := Nat.mod_lt _ hP
      rcases Nat.lt_or_ge L (N % P) with hlt | hge
      · obtain ⟨e1, e2, b1, b2⟩ :=
          arith_case_gt (P * (N / P)) L P N (N % P) hdm.symm hlt hrP
        rw [e1, e2,
          show P * (N / P) + P + (N % P - 1 - L) = P * (N / P + 1) + (N % P - 1 - L)
            by rw [Nat.mul_succ],
          show P * (N / P) + P + (N % P - L) = P * (N / P + 1) + (N % P - L)
            by rw [Nat.mul_succ],
          Nat.mul_add_div hP, Nat.mul_add_div hP, Nat.div_eq_of_lt b1,
          Nat.div_eq_of_lt b2]
      · have hlt2 : N % P < L := by omega
        obtain ⟨e1, e2, b1, b2⟩ :=
          arith_case_lt (P * (N / P)) L P N (N % P) hdm.symm hlt2 hL
        rw [e1, e2, Nat.mul_add_div hP, Nat.mul_add_div hP, Nat.div_eq_of_lt b1,
          Nat.div_eq_of_lt b2]

theorem length_nodeIndices (P L N : Nat) (indices : List Nat) (hP : 0 < P) (hL : L < P)
    (hperm : indices.Perm (List.range N)) :
    (nodeIndices P L indices).length = (N + P - 1 - L) / P := by
  rw [nodeIndices, ← List.countP_eq_length_filter, hperm.countP_eq,
    List.countP_eq_length_filter]
  exact length_filter_range_mod P L hP hL N

theorem tsp_eq_mul (N W P s : Nat) (hP : 0 < P) (hs : W = P * s) :
    total_size_parts N W P = num_samples N W * s := by
  have key : num_samples N W * W = P * (num_samples N W * s) := by rw [hs]; ring
  rw [total_size_parts, key, Nat.mul_div_cancel_left _ hP]

theorem nodeIndices_le_tsp (N W P s L : Nat) (indices : List Nat) (hP : 0 < P)
    (hs : W = P * s) (hs0 : 0 < s) (hL : L < P)
    (hperm : indices.Perm (List.range N)) :
    (nodeIndices P L indices).length ≤ total_size_parts N W P := by
  have hW : 0 < W := by rw [hs]; exact Nat.mul_pos hP hs0
  rw [length_nodeIndices P L N indices hP hL hperm, tsp_eq_mul N W P s hP hs]
  have h1 : (N + P - 1 - L) / P ≤ (N + P - 1) / P :=
    Nat.div_le_div_right (Nat.sub_le _ _)
  refine le_trans h1 ?_
  rw [Nat.div_le_iff_le_mul_add_pred hP]
  have h2 : N ≤ num_samples N W * W := num_samples_mul_ge N W hW
  have h3 : num_samples N W * W = P * (num_samples N W * s) := by rw [hs]; ring
  omega

theorem paddedIndices_length_iff (N W P L : Nat) (indices : List Nat) :
    ((paddedIndices N W P L indices).length = total_size_parts N W P) ↔
      ((nodeIndices P L indices).length ≤ total_size_parts N W P ∧
       total_size_parts N W P ≤ 2 * (nodeIndices P L indices).length) := by
  unfold paddedIndices
  rw [List.length_append, List.length_take]
  omega

theorem pySlice_length (l : List Nat) (o s ns : Nat) (hs0 : 0 < s) (ho : o < s) :
    (pySlice l o (ns * s) s).length = ns := by
  rw [pySlice, List.length_map, List.length_range]
  cases ns with
  | zero =>
    simp only [Nat.zero_mul, Nat.zero_sub, Nat.zero_add]
    exact Nat.div_eq_of_lt (by omega)
  | succ m =>
    have hle : s ≤ (m + 1) * s := by
      have h : (m + 1) * s = m * s + s := by ring
      omega
    have key : (m + 1) * s - o + s - 1 = s * (m + 1) + (s - 1 - o) := by
      have h1 : (m + 1) * s = s * (m + 1) := Nat.mul_comm _ _
      omega
    rw [key, Nat.mul_add_div hs0, Nat.div_eq_of_lt (by omega)]

theorem pySlice_mem (l : List Nat) (s ns j : Nat) (hs0 : 0 < s)
    (hlen : l.length = ns * s) (hj : j < l.length) :
    l.getD j 0 ∈ pySlice l (j % s) (ns * s) s := by
  have hjs : j % s < s := Nat.mod_lt _ hs0
  have hcount : (ns * s - j % s + s - 1) / s = ns := by
    have h := pySlice_length l (j % s) s ns hs0 hjs
    rwa [pySlice, List.length_map, List.length_range] at h
  rw [pySlice, hcount]
  refine List.mem_map.2 ⟨j / s, List.mem_range.2 ?_, ?_⟩
  · rw [Nat.div_lt_iff_lt_mul hs0]
    omega
  · rw [Nat.mod_add_div' j s]

theorem iter_eq_some (N W P s rank L : Nat) (indices : List Nat) (hP : 0 < P)
    (hs : W = P * s) (hs0 : 0 < s) (hr : rank < W)
    (h1 : (nodeIndices P L indices).length ≤ total_size_parts N W P)
    (h2 : total_size_parts N W P ≤ 2 * (nodeIndices P L indices).length) :
    iter N W P rank L indices
      = some (pySlice (paddedIndices N W P L indices) (rank / P)
          (total_size_parts N W P) (W / P)) ∧
    (pySlice (paddedIndices N W P L indices) (rank / P) (total_size_parts N W P)
        (W / P)).length = num_samples N W := by
  have hWP : W / P = s := by rw [hs, Nat.mul_div_cancel_left _ hP]
  have ho : rank / P < s := by
    rw [Nat.div_lt_iff_lt_mul hP]
    rw [hs, Nat.mul_comm] at hr
    exact hr
  have hlen : (pySlice (paddedIndices N W P L indices) (rank / P)
      (total_size_parts N W P) (W / P)).length = num_samples N W := by
    rw [hWP, tsp_eq_mul N W P s hP hs]
    exact pySlice_length _ _ s _ hs0 ho
  have hpadlen : (paddedIndices N W P L indices).length = total_size_parts N W P :=
    (paddedIndices_length_iff N W P L indices).2 ⟨h1, h2⟩
  refine ⟨?_, hlen⟩
  unfold iter
  rw [if_pos hpadlen, if_pos hlen]

theorem iter_covers (N W P s : Nat) (indices : List Nat) (hP : 0 < P)
    (hs : W = P * s) (hs0 : 0 < s)
    (hperm : indices.Perm (List.range N))
    (hpad : ∀ L, L < P →
      total_size_parts N W P ≤ 2 * (nodeIndices P L indices).length) :
    ∀ i, i < N → ∃ r, r < W ∧ ∃ l, iterRank N W P indices r = some l ∧ i ∈ l := by
  intro i hi
  have hiMem : i ∈ indices := hperm.mem_iff.2 (List.mem_range.2 hi)
  have hLP : i % P < P := Nat.mod_lt _ hP
  have hif : i ∈ nodeIndices P (i % P) indices := by
    rw [nodeIndices, List.mem_filter]
    exact ⟨hiMem, by simp⟩
  have hipad : i ∈ paddedIndices N W P (i % P) indices :=
    List.mem_append_left _ hif
  obtain ⟨j, hjlen, hji⟩ := List.getElem_of_mem hipad
  have h1 : (nodeIndices P (i % P) indices).length ≤ total_size_parts N W P :=
    nodeIndices_le_tsp N W P s (i % P) indices hP hs hs0 hLP hperm
  have h2 := hpad (i % P) hLP
  have hpadlen : (paddedIndices N W P (i % P) indices).length = total_size_parts N W P :=
    (paddedIndices_length_iff N W P (i % P) indices).2 ⟨h1, h2⟩
  have hpadns : (paddedIndices N W P (i % P) indices).length = num_samples N W * s := by
    rw [hpadlen, tsp_eq_mul N W P s hP hs]
  have hjs : j % s < s := Nat.mod_lt _ hs0
  have hrW : i % P + P * (j % s) < W := by
    have hcalc : P * (j % s + 1) = P * (j % s) + P := by ring
    have h5 : P * (j % s + 1) ≤ P * s := Nat.mul_le_mul_left P (by omega)
    rw [hs]
    omega
  have hrmod : (i % P + P * (j % s)) % P = i % P := by
    rw [Nat.add_mul_mod_self_left, Nat.mod_eq_of_lt hLP]
  have hrdiv : (i % P + P * (j % s)) / P = j % s := by
    rw [Nat.add_mul_div_left _ _ hP, Nat.div_eq_of_lt hLP]
    omega
  obtain ⟨heq, hsublen⟩ := iter_eq_some N W P s (i % P + P * (j % s)) (i % P)
    indices hP hs hs0 hrW h1 h2
  have hiter : iterRank N W P indices (i % P + P * (j % s))
      = some (pySlice (paddedIndices N W P (i % P) indices)
          ((i % P + P * (j % s)) / P) (total_size_parts N W P) (W / P)) := by
    unfold iterRank
    rw [hrmod]
    exact heq
  refine ⟨i % P + P * (j % s), hrW, _, hiter, ?_⟩
  have hWP : W / P = s := by rw [hs, Nat.mul_div_cancel_left _ hP]
  rw [hrdiv, hWP, tsp_eq_mul N W P s hP hs]
  have hmem := pySlice_mem (paddedIndices N W P (i % P) indices) s (num_samples N W)
    j hs0 hpadns hjlen
  rwa [List.getD_eq_getElem _ 0 hjlen, hji] at hmem

/-- C1 counterexample: at `N = 1 > 0`, `W = 4`, `P = 2` (so `W % P == 0`)
the sampler does not produce an index sequence on every rank: rank 1's
node-local share is empty, the front-padding cannot reach
`total_size_parts = 2`, and the length `assert` fails (modelled by
`none`). -/
theorem sampler_coverage_counterexample :
    0 < 1 ∧ 4 % 2 = 0 ∧ iterRank 1 4 2 (List.range 1) 1 = none := by decide

/-- C1 (amended): for every `N > 0`, `W > 0`, `P > 0` with `P ∣ W`, every
epoch-determined ordering (any permutation of `[0, N)`), and provided the
code's padding assertion is satisfiable on every local rank
(`total_size_parts ≤ 2 * c_L` for each local-rank class size `c_L`; the
bound `c_L ≤ total_size_parts` always holds), every rank `r < W` produces
a sequence of length exactly `num_samples = ceil(N / W)`, and the union
of the `W` ranks' sequences contains every index in `[0, N)` at least
once. -/
theorem sampler_coverage_and_length (N W P : Nat) (indices : List Nat)
    (hN : 0 < N) (hP : 0 < P) (hW : 0 < W) (hdvd : P ∣ W)
    (hperm : indices.Perm (List.range N))
    (hpad : ∀ L, L < P →
      total_size_parts N W P ≤ 2 * (nodeIndices P L indices).length) :
    (∀ r, r < W → ∃ l, iterRank N W P indices r = some l ∧
      l.length = num_samples N W) ∧
    (∀ i, i < N → ∃ r, r < W ∧ ∃ l, iterRank N W P indices r = some l ∧ i ∈ l) := by
  obtain ⟨s, hs⟩ := hdvd
  have hs0 : 0 < s := by
    rcases Nat.eq_zero_or_pos s with h | h
    · rw [h, Nat.mul_zero] at hs; omega
    · exact h
  constructor
  · intro r hrW
    have hLP : r % P < P := Nat.mod_lt _ hP
    obtain ⟨heq, hlen⟩ := iter_eq_some N W P s r (r % P) indices hP hs hs0 hrW
      (nodeIndices_le_tsp N W P s (r % P) indices hP hs hs0 hLP hperm)
      (hpad (r % P) hLP)
    exact ⟨_, heq, hlen⟩
  · exact iter_covers N W P s indices hP hs hs0 hperm hpad

/-- Witness for C1 (amended) at `N = 10, W = 4, P = 2`, identity order. -/
theorem sampler_coverage_witness :
    (∀ L, L < 2 → total_size_parts 10 4 2 ≤ 2 * (nodeIndices 2 L (List.range 10)).length) ∧
    (iterRank 10 4 2 (List.range 10) 1).isSome = true := by
  refine ⟨by decide, ?_⟩
  obtain ⟨l, hl, _⟩ := (sampler_coverage_and_length 10 4 2 (List.range 10)
    (by decide) (by decide) (by decide) ⟨2, rfl⟩ (List.Perm.refl _) (by decide)).1
    1 (by decide)
  rw [hl]
  rfl

/-- C3 counterexample: at `N = 1`, `W = 4`, `P = 2`, rank 1: `W % P == 0`
holds and the padded-length arithmetic `num_samples * W` is exactly
divisible by both `P` and `W / P`, yet iteration still fails — the
node-local share is empty and the padding `assert` fires.  (The code
raises `AssertionError` from `__iter__`; it contains no
`ConfigurationError` and performs no explicit `W % P` check.) -/
theorem iter_error_counterexample :
    4 % 2 = 0 ∧
    (num_samples 1 4 * 4) % 2 = 0 ∧
    (num_samples 1 4 * 4) % (4 / 2) = 0 ∧
    iterRank 1 4 2 (List.range 1) 1 = none := by decide

/-- C3 (amended): for `P > 0`, `W = P * s`, `rank < W` and any ordering,
`__iter__` succeeds exactly when the node-local share of length `c`
satisfies `c ≤ total_size_parts ≤ 2 * c` (the condition of the padding
`assert`; the subsample `assert` then holds automatically).  Failure is
an `AssertionError`, not a `ConfigurationError`, and is not
characterised by the divisibility of `W` by `P` or of the padded-length
arithmetic. -/
theorem iter_succeeds_iff (N W P s rank L : Nat) (indices : List Nat) (hP : 0 < P)
    (hs : W = P * s) (hr : rank < W) :
    (iter N W P rank L indices).isSome = true ↔
      ((nodeIndices P L indices).length ≤ total_size_parts N W P ∧
       total_size_parts N W P ≤ 2 * (nodeIndices P L indices).length) := by
  have hs0 : 0 < s := by
    rcases Nat.eq_zero_or_pos s with h | h
    · rw [h, Nat.mul_zero] at hs; omega
    · exact h
  constructor
  · intro h
    by_contra hc
    have hne : (paddedIndices N W P L indices).length ≠ total_size_parts N W P := by
      intro he
      exact hc ((paddedIndices_length_iff N W P L indices).1 he)
    unfold iter at h
    rw [if_neg hne] at h
    simp at h
  · intro hc
    rw [(iter_eq_some N W P s rank L indices hP hs hs0 hr hc.1 hc.2).1]
    rfl

/-- Witness for C3 (amended) at `N = 10, W = 4, P = 2`, rank 0. -/
theorem iter_succeeds_iff_witness :
    (iter 10 4 2 0 0 (List.range 10)).isSome = true :=
  (iter_succeeds_iff 10 4 2 2 0 0 (List.range 10) (by decide) rfl (by decide)).2
    (by decide)

end Misc
